import Mathlib

/-!
Verification development for the Destiny 2 catalyst tracker.

The repository ships the React frontend (AuthContext variants, Dashboard)
and database migrations; the FastAPI backend modules that implement the
external-data synchronization engine (CredentialManager, ManifestResolver,
SocketClassifier, ObjectiveAggregator) are described by the design document
and the backend README but their Python sources are not part of this tree.
Frontend behaviour is embedded directly from the JavaScript sources; the
missing backend operations are modelled from the design document, each such
definition carrying a doc comment that says so.
-/

namespace D2

/-- Association-list lookup by numeric key, as used throughout the models
for hash-to-definition maps. -/
def alookup {α : Type} (l : List (Nat × α)) (h : Nat) : Option α :=
  match l.find? (fun p => p.1 == h) with
  | some p => some p.2
  | none => none

theorem alookup_eq_none_of_not_mem {α : Type} (l : List (Nat × α)) (h : Nat)
    (hnot : ∀ p ∈ l, p.1 ≠ h) : alookup l h = none := by
  unfold alookup
  have : l.find? (fun p => p.1 == h) = none := by
    apply List.find?_eq_none.mpr
    intro p hp
    simpa using hnot p hp
  simp [this]

/-! ## ObjectiveAggregator model (backend module absent from the tree) -/

/-- Modelled from the spec: a manifest objective definition, pairing an
objective hash with its completion threshold (section 3, ManifestDefinition;
section 4.4, threshold taken from the objective definition). -/
structure ObjectiveDef where
  threshold : Nat
deriving DecidableEq, Repr

/-- Modelled from the spec: a manifest record definition for a catalog
entry, holding the authoritative list of objective hashes that belong to
the record (section 4.4). -/
structure RecordDef where
  objectiveHashes : List Nat
deriving DecidableEq, Repr

/-- Modelled from the spec: one entry of the raw per-character objective
progress feed, pairing an objective hash with a progress counter
(section 4.4). -/
structure RawObjective where
  hash : Nat
  progress : Nat
deriving DecidableEq, Repr

/-- Modelled from the spec: the normalized per-objective record inside a
CatalogEntry: objective hash, progress, completion threshold (section 3). -/
structure ObjEntry where
  objective_hash : Nat
  progress : Nat
  completion_threshold : Nat
deriving DecidableEq, Repr

/-- Modelled from the spec: a CatalogEntry (the catalyst record) with its
derived completion flag and normalized objective list (section 3). -/
structure CatalogEntry where
  record_hash : Nat
  is_complete : Bool
  objectives : List ObjEntry
deriving DecidableEq, Repr

/-- Modelled from the spec: a socket role attached to a socket index by the
item definition (section 4.3, rule 2). -/
inductive SocketRole where
  | barrel
  | magazine
  | trait1
  | trait2
  | origin
  | masterwork
  | mods
  | shaders
deriving DecidableEq, Repr

/-- Modelled from the spec: a manifest plug definition: a display name, a
category flag marking intrinsic/frame perks, and an optional masterwork
tier (section 4.3). -/
structure PlugDef where
  name : String
  isIntrinsic : Bool
  masterworkTier : Option Nat
deriving DecidableEq, Repr

/-- Modelled from the spec: a manifest item definition, whose own socket
category attribute associates socket index ranges with semantic roles
(section 4.3, rule 2). -/
structure ItemDef where
  socketRoles : List (Nat × SocketRole)
deriving DecidableEq, Repr

/-- Modelled from the spec: the manifest store, a read-only mapping from
(kind, hash) to ingested definitions (section 4.2). -/
structure Manifest where
  items : List (Nat × ItemDef)
  plugs : List (Nat × PlugDef)
  objectives : List (Nat × ObjectiveDef)
  records : List (Nat × RecordDef)

/-- Modelled from the spec: progress reported by the raw feed for an
objective hash, defaulting to zero when the feed omits the objective
(section 4.4: a required objective absent from the raw feed is treated as
progress zero). -/
def rawProgress (raw : List RawObjective) (h : Nat) : Nat :=
  match raw.find? (fun r => r.hash == h) with
  | some r => r.progress
  | none => 0

/-- Modelled from the spec: ObjectiveAggregator.aggregate (section 4.4).
Looks up the record definition for the authoritative objective hash list,
pairs each objective with the progress from the raw feed (zero when
absent) and the threshold from the objective definition (an objective hash
with no ingested definition is omitted), and derives
is_complete = all objectives have progress at least the threshold. -/
def aggregate (m : Manifest) (record_hash : Nat) (raw : List RawObjective) :
    Option CatalogEntry :=
  match alookup m.records record_hash with
  | none => none
  | some rd =>
    let objs := rd.objectiveHashes.filterMap (fun h =>
      match alookup m.objectives h with
      | none => none
      | some od => some (ObjEntry.mk h (rawProgress raw h) od.threshold))
    some (CatalogEntry.mk record_hash
      (objs.all (fun o => o.completion_threshold ≤ o.progress)) objs)

/-- Claim C1: for every catalog entry produced by aggregate, is_complete
holds iff every listed objective has progress at least its completion
threshold; in particular when every listed objective has progress equal to
its threshold the entry is complete, and any single listed objective with
progress strictly below its threshold makes the entry incomplete. -/
theorem aggregate_is_complete_iff (m : Manifest) (record_hash : Nat)
    (raw : List RawObjective) (e : CatalogEntry)
    (he : aggregate m record_hash raw = some e) :
    (e.is_complete = true ↔
      ∀ o ∈ e.objectives, o.completion_threshold ≤ o.progress)
    ∧ ((∀ o ∈ e.objectives, o.progress = o.completion_threshold) →
        e.is_complete = true)
    ∧ (∀ o ∈ e.objectives, o.progress < o.completion_threshold →
        e.is_complete = false) := by
  have key : ∀ l : List ObjEntry,
      ((l.all fun o => o.completion_threshold ≤ o.progress) = true ↔
        ∀ o ∈ l, o.completion_threshold ≤ o.progress) := by
    intro l
    simp only [List.all_eq_true, decide_eq_true_eq]
  have key2 : ∀ l : List ObjEntry, ∀ o ∈ l,
      o.progress < o.completion_threshold →
      (l.all fun o => o.completion_threshold ≤ o.progress) = false := by
    intro l o ho hlt
    exact List.all_eq_false.mpr ⟨o, ho, by simpa using not_le.mpr hlt⟩
  unfold aggregate at he
  cases hrd : alookup m.records record_hash with
  | none => rw [hrd] at he; exact absurd he (by simp)
  | some rd =>
    rw [hrd] at he
    simp only [Option.some.injEq] at he
    subst he
    refine ⟨key _, ?_, ?_⟩
    · intro hall
      exact (key _).mpr (fun o ho => le_of_eq (hall o ho).symm)
    · intro o ho hlt
      exact key2 _ o ho hlt

/-- Concrete manifest used by witnesses: one record (hash 10) requiring
objectives 1 (threshold 5) and 2 (threshold 1). -/
def mW : Manifest :=
  Manifest.mk [] [] [(1, ObjectiveDef.mk 5), (2, ObjectiveDef.mk 1)]
    [(10, RecordDef.mk [1, 2])]

theorem aggregate_is_complete_iff_witness :
    ∃ e, aggregate mW 10 [RawObjective.mk 1 5, RawObjective.mk 2 1] = some e
      ∧ e.is_complete = true := by
  refine ⟨CatalogEntry.mk 10 true [ObjEntry.mk 1 5 5, ObjEntry.mk 2 1 1],
    by decide, ?_⟩
  exact (aggregate_is_complete_iff mW 10
    [RawObjective.mk 1 5, RawObjective.mk 2 1]
    (CatalogEntry.mk 10 true [ObjEntry.mk 1 5 5, ObjEntry.mk 2 1 1])
    (by decide)).2.1 (by decide)

/-- Claim C5: aggregation does not fail when a required objective is absent
from the raw feed; the missing objective shows up in the entry with
progress zero and its definition threshold. -/
theorem aggregate_missing_objective_zero (m : Manifest) (record_hash : Nat)
    (raw : List RawObjective) (rd : RecordDef)
    (hrd : alookup m.records record_hash = some rd) :
    (∃ e, aggregate m record_hash raw = some e)
    ∧ (∀ e, aggregate m record_hash raw = some e →
        ∀ h od, h ∈ rd.objectiveHashes → alookup m.objectives h = some od →
          raw.find? (fun r => r.hash == h) = none →
          ObjEntry.mk h 0 od.threshold ∈ e.objectives) := by
  constructor
  · unfold aggregate
    rw [hrd]
    exact ⟨_, rfl⟩
  · intro e he h od hmem hod hfind
    unfold aggregate at he
    rw [hrd] at he
    simp only [Option.some.injEq] at he
    subst he
    simp only []
    apply List.mem_filterMap.mpr
    refine ⟨h, hmem, ?_⟩
    rw [hod]
    have : rawProgress raw h = 0 := by
      unfold rawProgress
      rw [hfind]
    rw [this]

theorem aggregate_missing_objective_zero_witness :
    aggregate mW 10 [RawObjective.mk 1 5] =
      some (CatalogEntry.mk 10 false [ObjEntry.mk 1 5 5, ObjEntry.mk 2 0 1])
    ∧ ObjEntry.mk 2 0 1 ∈
        (CatalogEntry.mk 10 false
          [ObjEntry.mk 1 5 5, ObjEntry.mk 2 0 1]).objectives := by
  refine ⟨by decide, ?_⟩
  exact (aggregate_missing_objective_zero mW 10 [RawObjective.mk 1 5]
    (RecordDef.mk [1, 2]) (by decide)).2
    (CatalogEntry.mk 10 false [ObjEntry.mk 1 5 5, ObjEntry.mk 2 0 1])
    (by decide) 2 (ObjectiveDef.mk 1) (by decide) (by decide) (by decide)

/-! ## ManifestResolver and SocketClassifier models (backend absent) -/

/-- Modelled from the spec: the fixed set of definition categories used to
key manifest lookups (section 3, ManifestDefinition). -/
inductive DefKind where
  | item
  | plug
  | objective
  | record
deriving DecidableEq, Repr

/-- Modelled from the spec: a resolved manifest definition of any kind. -/
inductive Definition where
  | item : ItemDef → Definition
  | plug : PlugDef → Definition
  | objective : ObjectiveDef → Definition
  | record : RecordDef → Definition
deriving DecidableEq, Repr

/-- Modelled from the spec: ManifestResolver.resolve (section 4.2):
returns the ingested definition for (kind, hash), or NotFound (here: none)
for an unrecognized hash; it is a total function, so it never raises. -/
def resolve (m : Manifest) (k : DefKind) (h : Nat) : Option Definition :=
  match k with
  | .item => (alookup m.items h).map Definition.item
  | .plug => (alookup m.plugs h).map Definition.plug
  | .objective => (alookup m.objectives h).map Definition.objective
  | .record => (alookup m.records h).map Definition.record

/-- A (kind, hash) pair has an ingested definition in the manifest store. -/
def ingested (m : Manifest) (k : DefKind) (h : Nat) : Prop :=
  match k with
  | .item => ∃ p ∈ m.items, p.1 = h
  | .plug => ∃ p ∈ m.plugs, p.1 = h
  | .objective => ∃ p ∈ m.objectives, p.1 = h
  | .record => ∃ p ∈ m.records, p.1 = h

/-- Modelled from the spec: one raw socket of a weapon instance: the
currently active plug hash plus optional alternative plug hashes
(section 4.3, rule 3). -/
structure RawSocket where
  active : Nat
  alternatives : List Nat
deriving DecidableEq, Repr

/-- Modelled from the spec: the derived PerkColumnSet record (section 3). -/
structure PerkColumnSet where
  intrinsic_perk : Option String
  barrel_plugs : List String
  magazine_plugs : List String
  trait1_plugs : List String
  trait2_plugs : List String
  origin_trait : Option String
  masterwork_tier : Option String
  mods : List String
  shaders : List String
deriving DecidableEq, Repr

def emptyColumns : PerkColumnSet :=
  PerkColumnSet.mk none [] [] [] [] none none [] []

/-- Modelled from the spec: the masterwork tier normalized to a small
enumerated label (section 4.3, rule 4). -/
def tierLabel (n : Nat) : String := "Tier " ++ toString n

/-- Modelled from the spec: rule 1 of section 4.3: the first socket whose
active plug resolves to a definition whose category marks it intrinsic;
returns its index and name. Unresolvable plugs are skipped. -/
def findIntrinsic (m : Manifest) : List (Nat × RawSocket) → Option (Nat × String)
  | [] => none
  | (i, s) :: rest =>
    match alookup m.plugs s.active with
    | some d => if d.isIntrinsic then some (i, d.name) else findIntrinsic m rest
    | none => findIntrinsic m rest

/-- Modelled from the spec: rules 2, 3 and 5 of section 4.3 for a single
socket: only the active plug contributes; the socket is grouped by the
role the item definition assigns to its index; a plug hash with no
resolvable definition is silently dropped. -/
def classifySocket (m : Manifest) (it : ItemDef) (acc : PerkColumnSet)
    (idx : Nat) (s : RawSocket) : PerkColumnSet :=
  match alookup m.plugs s.active with
  | none => acc
  | some d =>
    match alookup it.socketRoles idx with
    | none => acc
    | some role =>
      match role with
      | .barrel => { acc with barrel_plugs := acc.barrel_plugs ++ [d.name] }
      | .magazine =>
        { acc with magazine_plugs := acc.magazine_plugs ++ [d.name] }
      | .trait1 => { acc with trait1_plugs := acc.trait1_plugs ++ [d.name] }
      | .trait2 => { acc with trait2_plugs := acc.trait2_plugs ++ [d.name] }
      | .origin => { acc with origin_trait := some d.name }
      | .masterwork =>
        { acc with masterwork_tier := d.masterworkTier.map tierLabel }
      | .mods => { acc with mods := acc.mods ++ [d.name] }
      | .shaders => { acc with shaders := acc.shaders ++ [d.name] }

/-- Modelled from the spec: the column set before index grouping: only the
intrinsic perk of rule 1 is filled in (section 4.3). -/
def classifyBase (m : Manifest) (raw_sockets : List RawSocket) :
    PerkColumnSet :=
  { emptyColumns with
    intrinsic_perk :=
      (findIntrinsic m raw_sockets.enum).map
        (fun p : Nat × String => p.2) }

/-- Modelled from the spec: the sockets remaining after the intrinsic
socket of rule 1 is taken out (section 4.3, rule 2). -/
def remainingSockets (m : Manifest) (raw_sockets : List RawSocket) :
    List (Nat × RawSocket) :=
  match findIntrinsic m raw_sockets.enum with
  | some (i, _) =>
    raw_sockets.enum.filter (fun p : Nat × RawSocket => p.1 ≠ i)
  | none => raw_sockets.enum

/-- Modelled from the spec: SocketClassifier.classify (section 4.3).
The intrinsic perk is found by rule 1; the remaining sockets are grouped
by the socket category of the item definition (rule 2), reading only the
active plug (rule 3); unresolvable hashes degrade to omission (rule 5).
An item hash with no ingested definition yields only the intrinsic column
since the socket role table is unavailable. -/
def classify (m : Manifest) (item_hash : Nat)
    (raw_sockets : List RawSocket) : PerkColumnSet :=
  match alookup m.items item_hash with
  | none => classifyBase m raw_sockets
  | some it =>
    (remainingSockets m raw_sockets).foldl
      (fun acc p => classifySocket m it acc p.1 p.2)
      (classifyBase m raw_sockets)

/-- A string is the display name of some plug resolvable in the manifest. -/
def NameOk (m : Manifest) (n : String) : Prop :=
  ∃ h d, alookup m.plugs h = some d ∧ d.name = n

/-- A string is the tier label of some resolvable plug definition. -/
def TierOk (m : Manifest) (n : String) : Prop :=
  ∃ h d t, alookup m.plugs h = some d ∧ d.masterworkTier = some t
    ∧ n = tierLabel t

/-- Every name in the column set originates from a resolvable plug
definition: unresolvable plug hashes contribute nothing. -/
def ColumnsOk (m : Manifest) (p : PerkColumnSet) : Prop :=
  (∀ n, p.intrinsic_perk = some n → NameOk m n)
  ∧ (∀ n ∈ p.barrel_plugs, NameOk m n)
  ∧ (∀ n ∈ p.magazine_plugs, NameOk m n)
  ∧ (∀ n ∈ p.trait1_plugs, NameOk m n)
  ∧ (∀ n ∈ p.trait2_plugs, NameOk m n)
  ∧ (∀ n, p.origin_trait = some n → NameOk m n)
  ∧ (∀ n, p.masterwork_tier = some n → TierOk m n)
  ∧ (∀ n ∈ p.mods, NameOk m n)
  ∧ (∀ n ∈ p.shaders, NameOk m n)

theorem columnsOk_classifySocket (m : Manifest) (it : ItemDef)
    (acc : PerkColumnSet) (idx : Nat) (s : RawSocket)
    (hacc : ColumnsOk m acc) :
    ColumnsOk m (classifySocket m it acc idx s) := by
  unfold classifySocket
  cases hd : alookup m.plugs s.active with
  | none => exact hacc
  | some d =>
    cases hr : alookup it.socketRoles idx with
    | none => exact hacc
    | some role =>
      obtain ⟨h1, h2, h3, h4, h5, h6, h7, h8, h9⟩ := hacc
      have hname : NameOk m d.name := ⟨s.active, d, hd, rfl⟩
      have happ : ∀ l : List String, (∀ n ∈ l, NameOk m n) →
          ∀ n ∈ l ++ [d.name], NameOk m n := by
        intro l hl n hn
        rcases List.mem_append.mp hn with hmem | hmem
        · exact hl n hmem
        · rw [List.mem_singleton.mp hmem]; exact hname
      cases role with
      | barrel => exact ⟨h1, happ _ h2, h3, h4, h5, h6, h7, h8, h9⟩
      | magazine => exact ⟨h1, h2, happ _ h3, h4, h5, h6, h7, h8, h9⟩
      | trait1 => exact ⟨h1, h2, h3, happ _ h4, h5, h6, h7, h8, h9⟩
      | trait2 => exact ⟨h1, h2, h3, h4, happ _ h5, h6, h7, h8, h9⟩
      | origin =>
        refine ⟨h1, h2, h3, h4, h5, ?_, h7, h8, h9⟩
        intro n hn
        have hn2 : some d.name = some n := hn
        have hne : d.name = n := Option.some_injective _ hn2
        rw [← hne]
        exact hname
      | masterwork =>
        refine ⟨h1, h2, h3, h4, h5, h6, ?_, h8, h9⟩
        intro n hn
        have hn2 : d.masterworkTier.map tierLabel = some n := hn
        rcases Option.map_eq_some'.mp hn2 with ⟨t, ht, hlab⟩
        exact ⟨s.active, d, t, hd, ht, hlab.symm⟩
      | mods => exact ⟨h1, h2, h3, h4, h5, h6, h7, happ _ h8, h9⟩
      | shaders => exact ⟨h1, h2, h3, h4, h5, h6, h7, h8, happ _ h9⟩

theorem columnsOk_foldl (m : Manifest) (it : ItemDef)
    (l : List (Nat × RawSocket)) (acc : PerkColumnSet)
    (hacc : ColumnsOk m acc) :
    ColumnsOk m
      (l.foldl (fun a p => classifySocket m it a p.1 p.2) acc) := by
  induction l generalizing acc with
  | nil => exact hacc
  | cons p rest ih =>
    exact ih _ (columnsOk_classifySocket m it acc p.1 p.2 hacc)

theorem findIntrinsic_nameOk (m : Manifest) (l : List (Nat × RawSocket))
    (i : Nat) (n : String) (h : findIntrinsic m l = some (i, n)) :
    NameOk m n := by
  induction l with
  | nil => exact absurd h (by simp [findIntrinsic])
  | cons p rest ih =>
    have h2 : (match alookup m.plugs p.2.active with
        | some d =>
          if d.isIntrinsic = true then some (p.1, d.name)
          else findIntrinsic m rest
        | none => findIntrinsic m rest) = some (i, n) := h
    cases hd : alookup m.plugs p.2.active with
    | none => rw [hd] at h2; exact ih h2
    | some d =>
      rw [hd] at h2
      have h3 : (if d.isIntrinsic = true then some (p.1, d.name)
          else findIntrinsic m rest) = some (i, n) := h2
      by_cases hi : d.isIntrinsic = true
      · rw [if_pos hi] at h3
        simp only [Option.some.injEq, Prod.mk.injEq] at h3
        exact ⟨p.2.active, d, hd, h3.2⟩
      · rw [if_neg hi] at h3
        exact ih h3

theorem columnsOk_classifyBase (m : Manifest)
    (raw_sockets : List RawSocket) :
    ColumnsOk m (classifyBase m raw_sockets) := by
  refine ⟨?_, ?_, ?_, ?_, ?_, ?_, ?_, ?_, ?_⟩
  · intro n hn
    have hn2 : (findIntrinsic m raw_sockets.enum).map
        (fun p : Nat × String => p.2) = some n := hn
    rcases Option.map_eq_some'.mp hn2 with ⟨pr, hfi, hsnd⟩
    rw [← hsnd]
    exact findIntrinsic_nameOk m raw_sockets.enum pr.1 pr.2
      (by rw [← hfi])
  · intro n hn; exact absurd hn (List.not_mem_nil n)
  · intro n hn; exact absurd hn (List.not_mem_nil n)
  · intro n hn; exact absurd hn (List.not_mem_nil n)
  · intro n hn; exact absurd hn (List.not_mem_nil n)
  · intro n hn
    exact absurd (show (none : Option String) = some n from hn)
      (by simp)
  · intro n hn
    exact absurd (show (none : Option String) = some n from hn)
      (by simp)
  · intro n hn; exact absurd hn (List.not_mem_nil n)
  · intro n hn; exact absurd hn (List.not_mem_nil n)

theorem columnsOk_classify (m : Manifest) (item_hash : Nat)
    (raw_sockets : List RawSocket) :
    ColumnsOk m (classify m item_hash raw_sockets) := by
  unfold classify
  cases hit : alookup m.items item_hash with
  | none => exact columnsOk_classifyBase m raw_sockets
  | some it =>
    exact columnsOk_foldl m it _ _ (columnsOk_classifyBase m raw_sockets)

/-- Claim C7: resolve returns NotFound (none) for a (kind, hash) pair with
no ingested definition and, being a total function, never throws; classify
omits any label coming from an unresolvable plug hash (every name in its
output stems from a resolvable definition); aggregate omits an objective
whose hash has no ingested definition instead of failing. -/
theorem resolve_notfound_degrades (m : Manifest) (k : DefKind) (h : Nat)
    (item_hash : Nat) (raw_sockets : List RawSocket)
    (record_hash : Nat) (raw : List RawObjective) :
    (¬ ingested m k h → resolve m k h = none)
    ∧ ColumnsOk m (classify m item_hash raw_sockets)
    ∧ (∀ e, aggregate m record_hash raw = some e →
        ∀ oh, alookup m.objectives oh = none →
          ∀ o ∈ e.objectives, o.objective_hash ≠ oh) := by
  refine ⟨?_, columnsOk_classify m item_hash raw_sockets, ?_⟩
  · intro hni
    have key : ∀ {α : Type} (l : List (Nat × α)),
        ¬ (∃ p ∈ l, p.1 = h) → alookup l h = none := by
      intro α l hl
      apply alookup_eq_none_of_not_mem
      intro p hp
      exact fun he => hl ⟨p, hp, he⟩
    cases k with
    | item =>
      show (alookup m.items h).map Definition.item = none
      rw [key m.items hni]
      rfl
    | plug =>
      show (alookup m.plugs h).map Definition.plug = none
      rw [key m.plugs hni]
      rfl
    | objective =>
      show (alookup m.objectives h).map Definition.objective = none
      rw [key m.objectives hni]
      rfl
    | record =>
      show (alookup m.records h).map Definition.record = none
      rw [key m.records hni]
      rfl
  · intro e he oh hoh o ho
    unfold aggregate at he
    cases hrd : alookup m.records record_hash with
    | none => rw [hrd] at he; exact absurd he (by simp)
    | some rd =>
      rw [hrd] at he
      simp only [Option.some.injEq] at he
      subst he
      simp only [] at ho
      rcases List.mem_filterMap.mp ho with ⟨a, _, ha⟩
      intro hcon
      cases hoa : alookup m.objectives a with
      | none => rw [hoa] at ha; exact absurd ha (by simp)
      | some od =>
        rw [hoa] at ha
        simp only [Option.some.injEq] at ha
        have : o.objective_hash = a := by rw [← ha]
        rw [hcon] at this
        rw [← this] at hoa
        rw [hoa] at hoh
        exact absurd hoh (by simp)

theorem resolve_notfound_degrades_witness :
    resolve mW DefKind.plug 99 = none := by
  refine (resolve_notfound_degrades mW DefKind.plug 99 0 [] 10 []).1 ?_
  intro hx
  have hx2 : ∃ p ∈ mW.plugs, p.1 = 99 := hx
  rcases hx2 with ⟨p, hp, _⟩
  exact absurd hp (List.not_mem_nil p)

/-! ## CredentialManager single-flight model (backend absent) -/

/-- Modelled from the spec: the observable renewal state of
CredentialManager for one subject: the cached token value, the count of
upstream refresh calls issued, the set of callers waiting on the renewal
in flight, and the tokens delivered to callers (sections 4.1 and 5). -/
structure SFState where
  token : String
  refreshCount : Nat
  waiting : Option (List Nat)
  delivered : List (Nat × String)
deriving DecidableEq, Repr

/-- Modelled from the spec: a caller of getValidAccessToken arriving while
the cached token is expired (section 4.1): if no renewal is in flight the
caller acquires the per-subject renewal lock and issues the single
upstream refresh call; otherwise the caller joins the waiters of the
renewal already in flight instead of issuing a second call. -/
def sfArrive (s : SFState) (c : Nat) : SFState :=
  match s.waiting with
  | none =>
    { s with refreshCount := s.refreshCount + 1, waiting := some [c] }
  | some ws => { s with waiting := some (c :: ws) }

/-- Modelled from the spec: the in-flight renewal completing with a fresh
token (section 4.1): the tokens are atomically replaced and every waiting
caller receives the same resulting token. -/
def sfComplete (s : SFState) (t : String) : SFState :=
  match s.waiting with
  | none => s
  | some ws =>
    { s with
      token := t
      waiting := none
      delivered := ws.map (fun c => (c, t)) ++ s.delivered }

/-- The initial state for a renewal round: an expired cached token, no
renewal in flight, nothing issued or delivered yet. -/
def sfInit (old : String) : SFState := SFState.mk old 0 none []

theorem sfArrive_foldl_inflight (cs : List Nat) (s : SFState) (ws : List Nat)
    (hw : s.waiting = some ws) :
    ∃ ws2, (cs.foldl sfArrive s).waiting = some ws2
      ∧ (cs.foldl sfArrive s).refreshCount = s.refreshCount
      ∧ (cs.foldl sfArrive s).delivered = s.delivered
      ∧ (∀ c ∈ cs, c ∈ ws2) ∧ (∀ c ∈ ws, c ∈ ws2) := by
  induction cs generalizing s ws with
  | nil => exact ⟨ws, hw, rfl, rfl, by simp, fun c hc => hc⟩
  | cons c0 rest ih =>
    have harr : sfArrive s c0 = { s with waiting := some (c0 :: ws) } := by
      unfold sfArrive
      rw [hw]
    rcases ih (sfArrive s c0) (c0 :: ws) (by rw [harr]) with
      ⟨ws2, hws2, hrc, hdel, hcs, hold⟩
    refine ⟨ws2, by simpa using hws2, ?_, ?_, ?_, ?_⟩
    · rw [List.foldl_cons, hrc, harr]
    · rw [List.foldl_cons, hdel, harr]
    · intro c hc
      rcases List.mem_cons.mp hc with hc | hc
      · rw [hc]; exact hold c0 (List.mem_cons_self c0 ws)
      · exact hcs c hc
    · intro c hc
      exact hold c (List.mem_cons_of_mem c0 hc)

/-- Claim C2: with N concurrent callers (any nonempty arrival order)
requesting a valid access token for one subject while the cached token is
expired, exactly one upstream refresh call is issued and every caller is
delivered the same resulting token. -/
theorem single_flight_refresh (old : String) (cs : List Nat) (t : String)
    (hne : cs ≠ []) :
    ((cs.foldl sfArrive (sfInit old)).refreshCount = 1
      ∧ (sfComplete (cs.foldl sfArrive (sfInit old)) t).refreshCount = 1)
    ∧ (∀ c ∈ cs,
        (c, t) ∈ (sfComplete (cs.foldl sfArrive (sfInit old)) t).delivered)
    := by
  cases cs with
  | nil => exact absurd rfl hne
  | cons c0 rest =>
    have harr : sfArrive (sfInit old) c0 =
        SFState.mk old 1 (some [c0]) [] := by
      unfold sfArrive sfInit
      rfl
    rcases sfArrive_foldl_inflight rest (sfArrive (sfInit old) c0) [c0]
        (by rw [harr]) with ⟨ws2, hws2, hrc, hdel, hcs, hold⟩
    have hrc1 : (List.foldl sfArrive (sfInit old) (c0 :: rest)).refreshCount
        = 1 := by
      rw [List.foldl_cons, hrc, harr]
    have hws : (List.foldl sfArrive (sfInit old) (c0 :: rest)).waiting
        = some ws2 := by
      rw [List.foldl_cons, hws2]
    have hdel0 : (List.foldl sfArrive (sfInit old) (c0 :: rest)).delivered
        = [] := by
      rw [List.foldl_cons, hdel, harr]
    have hcompl : sfComplete (List.foldl sfArrive (sfInit old) (c0 :: rest)) t
        = { List.foldl sfArrive (sfInit old) (c0 :: rest) with
            token := t
            waiting := none
            delivered := ws2.map (fun c => (c, t))
              ++ (List.foldl sfArrive (sfInit old) (c0 :: rest)).delivered }
        := by
      unfold sfComplete
      rw [hws]
    refine ⟨⟨hrc1, by rw [hcompl]; exact hrc1⟩, ?_⟩
    intro c hc
    rw [hcompl]
    simp only [hdel0, List.append_nil]
    apply List.mem_map.mpr
    refine ⟨c, ?_, rfl⟩
    rcases List.mem_cons.mp hc with hc | hc
    · rw [hc]; exact hold c0 (List.mem_cons_self c0 [])
    · exact hcs c hc

theorem single_flight_refresh_witness :
    ((([7, 8, 9] : List Nat).foldl sfArrive (sfInit "oldtok")).refreshCount
        = 1
      ∧ (sfComplete (([7, 8, 9] : List Nat).foldl sfArrive (sfInit "oldtok"))
          "newtok").refreshCount = 1)
    ∧ (∀ c ∈ ([7, 8, 9] : List Nat),
        (c, "newtok") ∈
          (sfComplete (([7, 8, 9] : List Nat).foldl sfArrive
            (sfInit "oldtok")) "newtok").delivered) :=
  single_flight_refresh "oldtok" [7, 8, 9] "newtok" (by decide)

/-! ## Session token model (backend absent) -/

/-- Modelled from the spec: a signed, time-boxed session token carrying a
subject and an expiry claim, verified by signature plus expiry and never
looked up in a store (section 3, SessionToken). -/
structure SessionToken where
  subject : Nat
  expiry : Nat
  sig : Nat
deriving DecidableEq, Repr

/-- Modelled from the spec: CredentialManager.renewSessionToken
(sections 4.1 and 6): re-issues a fresh session token when the old token
carries a valid signature, even when the old token is already expired, as
long as the current time is within the grace window past the expiry. The
function is parameterized by the signing function and server key; the
second component counts calls to the upstream provider and is always
zero. -/
def renewSessionToken (sgn : Nat → Nat → Nat → Nat)
    (key now grace lifetime : Nat) (old : SessionToken) :
    Option SessionToken × Nat :=
  if old.sig = sgn key old.subject old.expiry then
    if now ≤ old.expiry + grace then
      (some (SessionToken.mk old.subject (now + lifetime)
        (sgn key old.subject (now + lifetime))), 0)
    else (none, 0)
  else (none, 0)

/-- Claim C8: for every session token with a valid signature, and any
current time within the grace window (in particular past the expiry, so
the token may already be expired), renewSessionToken re-issues a fresh
token for the same subject while making zero calls to the upstream
provider, so the client is not forced to re-authenticate merely because
the expiry has passed. -/
theorem renewSessionToken_grace (sgn : Nat → Nat → Nat → Nat)
    (key now grace lifetime : Nat) (old : SessionToken)
    (hsig : old.sig = sgn key old.subject old.expiry)
    (hgrace : now ≤ old.expiry + grace) :
    renewSessionToken sgn key now grace lifetime old =
      (some (SessionToken.mk old.subject (now + lifetime)
        (sgn key old.subject (now + lifetime))), 0) := by
  unfold renewSessionToken
  rw [if_pos hsig, if_pos hgrace]

/-- The signing function used by the witness. -/
def sgnW : Nat → Nat → Nat → Nat := fun k s e => k + 2 * s + 3 * e

theorem renewSessionToken_grace_witness :
    (10 : Nat) < 50
    ∧ renewSessionToken sgnW 5 50 100 1440 (SessionToken.mk 7 10 49) =
        (some (SessionToken.mk 7 1490 4489), 0) :=
  ⟨by decide,
    renewSessionToken_grace sgnW 5 50 100 1440 (SessionToken.mk 7 10 49)
      (by decide) (by decide)⟩

/-! ## Browser localStorage model, shared by the frontend embeddings -/

/-- Browser localStorage: a list of key/value pairs; setItem prepends so
getItem finds the most recent binding. -/
def Store := List (String × String)

def storeGet (ls : Store) (k : String) : Option String :=
  match List.find? (fun p => p.1 == k) ls with
  | some p => some p.2
  | none => none

def storeSet (ls : Store) (k v : String) : Store := (k, v) :: ls

/-- Decimal digit value of a character, used to model the parseInt calls
of the frontend on stored expiry timestamps. -/
def charDigit (c : Char) : Option Nat :=
  if 48 ≤ c.toNat ∧ c.toNat ≤ 57 then some (c.toNat - 48) else none

def parseRest : List Char → Nat → Nat
  | [], acc => acc
  | c :: cs, acc =>
    match charDigit c with
    | none => acc
    | some d => parseRest cs (acc * 10 + d)

def parseIntChars : List Char → Option Nat
  | [] => none
  | c :: cs =>
    match charDigit c with
    | none => none
    | some d => some (parseRest cs d)

/-- parseInt with radix ten on a nonnegative decimal string: none models
the NaN result on input with no leading digit. -/
def parseInt10 (s : String) : Option Nat := parseIntChars s.data

/-! ## AuthContext of web_app (src/web_app/frontend/src/contexts/AuthContext.js) -/

/-- Embedded from isTokenExpired in
src/web_app/frontend/src/contexts/AuthContext.js lines 46 to 65: a missing
jwt_expiry entry counts as expired; otherwise the stored string is parsed
and the token is expired when now is at or past the parsed timestamp (a
string that parses to no number leaves the comparison false, as NaN does
in the source). -/
def isTokenExpired (now : Nat) (ls : Store) : Bool :=
  match storeGet ls "jwt_expiry" with
  | none => true
  | some s =>
    match parseInt10 s with
    | none => false
    | some e => decide (e ≤ now)

/-- Result of one checkAuthStatus run: the authenticated flag, the token
state, and the number of network calls performed during the run. -/
structure AuthCheck where
  authenticated : Bool
  token : Option String
  networkCalls : Nat
deriving DecidableEq, Repr

/-- Embedded from checkAuthStatus in
src/web_app/frontend/src/contexts/AuthContext.js lines 87 to 136: a
missing app_jwt logs out; an expired one logs out; otherwise the user is
authenticated with the stored token. No branch of this function issues a
network request. -/
def checkAuthStatusW (now : Nat) (ls : Store) : AuthCheck :=
  match storeGet ls "app_jwt" with
  | none => AuthCheck.mk false none 0
  | some tok =>
    if isTokenExpired now ls then AuthCheck.mk false none 0
    else AuthCheck.mk true (some tok) 0

/-- Claim C6: whenever the cached credential expiry lies more than the
safety margin in the future, the auth check returns the cached token and
performs zero network calls. -/
theorem checkAuthStatus_cached_no_network (now margin e : Nat) (ls : Store)
    (tok s : String)
    (htok : storeGet ls "app_jwt" = some tok)
    (hexp : storeGet ls "jwt_expiry" = some s)
    (hparse : parseInt10 s = some e)
    (hfresh : now + margin < e) :
    checkAuthStatusW now ls = AuthCheck.mk true (some tok) 0 := by
  have hnotexp : isTokenExpired now ls = false := by
    unfold isTokenExpired
    rw [hexp]
    show (match parseInt10 s with
      | none => false
      | some e => decide (e ≤ now)) = false
    rw [hparse]
    show decide (e ≤ now) = false
    simp only [decide_eq_false_iff_not, not_le]
    calc now ≤ now + margin := Nat.le_add_right now margin
    _ < e := hfresh
  unfold checkAuthStatusW
  rw [htok]
  show (if isTokenExpired now ls then AuthCheck.mk false none 0
    else AuthCheck.mk true (some tok) 0) = AuthCheck.mk true (some tok) 0
  rw [hnotexp]
  rfl

theorem checkAuthStatus_cached_no_network_witness :
    checkAuthStatusW 100 [("app_jwt", "JWT1"), ("jwt_expiry", "1000")] =
      AuthCheck.mk true (some "JWT1") 0 :=
  checkAuthStatus_cached_no_network 100 60 1000
    [("app_jwt", "JWT1"), ("jwt_expiry", "1000")] "JWT1" "1000"
    (by rfl) (by rfl) (by decide) (by decide)

/-! ## Retry loop of src/unnamed/part_002 checkAuthStatus -/

/-- Embedded from src/unnamed/part_002 lines 4 to 6. -/
def MAX_AUTH_RETRIES : Nat := 3

/-- Embedded from src/unnamed/part_002 lines 4 to 6: fixed retry delay in
milliseconds. -/
def RETRY_DELAY_MS : Nat := 3000

/-- One upstream response to the /auth/verify request issued by an
attempt of checkAuthStatus in src/unnamed/part_002. -/
inductive VerifyResponse where
  | valid
  | invalidBody
  | httpError (status : Nat)
  | networkError
deriving DecidableEq, Repr

inductive AuthOutcome where
  | authenticated
  | loggedOut
deriving DecidableEq, Repr

/-- Embedded from checkAuthStatus in src/unnamed/part_002 lines 83 to 194:
each attempt consumes one upstream response; a valid body authenticates;
a 401 or 403 logs out; a 503 below the retry cap schedules another attempt
after the fixed RETRY_DELAY_MS and recurses with currentRetry + 1, while a
503 at the cap logs out; every other error (including any 500 and network
errors) logs out immediately. The second component records the scheduled
retry delays in order. -/
def runVerify : List VerifyResponse → Nat → AuthOutcome × List Nat
  | [], _ => (AuthOutcome.loggedOut, [])
  | r :: rest, currentRetry =>
    match r with
    | .valid => (AuthOutcome.authenticated, [])
    | .invalidBody => (AuthOutcome.loggedOut, [])
    | .httpError status =>
      if status = 401 ∨ status = 403 then (AuthOutcome.loggedOut, [])
      else if status = 503 then
        if currentRetry < MAX_AUTH_RETRIES - 1 then
          ((runVerify rest (currentRetry + 1)).1,
            RETRY_DELAY_MS :: (runVerify rest (currentRetry + 1)).2)
        else (AuthOutcome.loggedOut, [])
      else (AuthOutcome.loggedOut, [])
    | .networkError => (AuthOutcome.loggedOut, [])

/-- Claim C4 counterexample: three HTTP 500 responses followed by a
success on the fourth attempt do not stay within any retry budget of this
code: the very first 500 logs the user out with no retry at all, so the
renewal does not ultimately succeed. -/
theorem verify_retry_cex :
    runVerify [VerifyResponse.httpError 500, VerifyResponse.valid,
      VerifyResponse.valid, VerifyResponse.valid] 0
      = (AuthOutcome.loggedOut, []) := by decide

theorem runVerify_delay_bound (rs : List VerifyResponse) (r : Nat) :
    ((runVerify rs r).2).length + r ≤ max r (MAX_AUTH_RETRIES - 1)
    ∧ ∀ d ∈ (runVerify rs r).2, d = RETRY_DELAY_MS := by
  induction rs generalizing r with
  | nil =>
    refine ⟨?_, ?_⟩
    · show ([] : List Nat).length + r ≤ max r (MAX_AUTH_RETRIES - 1)
      simp
    · intro d hd
      exact absurd hd (List.not_mem_nil d)
  | cons resp rest ih =>
    cases resp with
    | valid =>
      refine ⟨by simp [runVerify], ?_⟩
      intro d hd
      exact absurd hd (by simp [runVerify])
    | invalidBody =>
      refine ⟨by simp [runVerify], ?_⟩
      intro d hd
      exact absurd hd (by simp [runVerify])
    | networkError =>
      refine ⟨by simp [runVerify], ?_⟩
      intro d hd
      exact absurd hd (by simp [runVerify])
    | httpError status =>
      by_cases h1 : status = 401 ∨ status = 403
      · refine ⟨by simp [runVerify, h1], ?_⟩
        intro d hd
        exact absurd hd (by simp [runVerify, h1])
      · by_cases h2 : status = 503
        · by_cases h3 : r < MAX_AUTH_RETRIES - 1
          · have heq : runVerify (VerifyResponse.httpError status :: rest) r
                = ((runVerify rest (r + 1)).1,
                    RETRY_DELAY_MS :: (runVerify rest (r + 1)).2) := by
              simp [runVerify, h1, h2, h3]
            rcases ih (r + 1) with ⟨hlen, hall⟩
            refine ⟨?_, ?_⟩
            · rw [heq]
              show ((runVerify rest (r + 1)).2).length + 1 + r
                ≤ max r (MAX_AUTH_RETRIES - 1)
              have hmax : max (r + 1) (MAX_AUTH_RETRIES - 1)
                  = MAX_AUTH_RETRIES - 1 :=
                Nat.max_eq_right h3
              rw [hmax] at hlen
              have : max r (MAX_AUTH_RETRIES - 1) = MAX_AUTH_RETRIES - 1 :=
                Nat.max_eq_right (Nat.le_of_lt h3)
              rw [this]
              omega
            · intro d hd
              rw [heq] at hd
              rcases List.mem_cons.mp hd with hd | hd
              · exact hd
              · exact hall d hd
          · refine ⟨by simp [runVerify, h1, h2, h3], ?_⟩
            intro d hd
            exact absurd hd (by simp [runVerify, h1, h2, h3])
        · refine ⟨by simp [runVerify, h1, h2], ?_⟩
          intro d hd
          exact absurd hd (by simp [runVerify, h1, h2])

/-- Claim C4 amended: the code retries only on HTTP 503, with a fixed
3000 ms delay and no exponential backoff or jitter, within a budget of
MAX_AUTH_RETRIES = 3 total attempts: one or two 503 responses followed by
a success still authenticate, a third consecutive 503 logs out even when
a later attempt would succeed, and any HTTP 500 logs out immediately with
no retry. -/
theorem verify_retry_budget :
    (∀ rest r, runVerify (VerifyResponse.httpError 500 :: rest) r
      = (AuthOutcome.loggedOut, []))
    ∧ runVerify [VerifyResponse.httpError 503, VerifyResponse.valid] 0
      = (AuthOutcome.authenticated, [RETRY_DELAY_MS])
    ∧ runVerify [VerifyResponse.httpError 503, VerifyResponse.httpError 503,
        VerifyResponse.valid] 0
      = (AuthOutcome.authenticated, [RETRY_DELAY_MS, RETRY_DELAY_MS])
    ∧ (∀ rest, runVerify (VerifyResponse.httpError 503
        :: VerifyResponse.httpError 503 :: VerifyResponse.httpError 503
        :: rest) 0
      = (AuthOutcome.loggedOut, [RETRY_DELAY_MS, RETRY_DELAY_MS]))
    ∧ (∀ rs r, ((runVerify rs r).2).length + r
        ≤ max r (MAX_AUTH_RETRIES - 1))
    ∧ (∀ rs r, ∀ d ∈ (runVerify rs r).2, d = RETRY_DELAY_MS) := by
  refine ⟨?_, by decide, by decide, ?_, ?_, ?_⟩
  · intro rest r
    simp [runVerify]
  · intro rest
    simp [runVerify, RETRY_DELAY_MS, MAX_AUTH_RETRIES]
  · intro rs r
    exact (runVerify_delay_bound rs r).1
  · intro rs r
    exact (runVerify_delay_bound rs r).2

/-! ## AuthContext of src/unnamed/part_015 and Dashboard weapon fetch -/

/-- The token_data object of the backend callback response, embedded from
the response shape consumed in src/unnamed/part_015 line 55. -/
structure TokenData where
  access_token : String
deriving DecidableEq, Repr

/-- Embedded from handleCallback in src/unnamed/part_015 lines 52 to 62:
a successful callback response has its token_data.access_token written to
browser localStorage under the key bungie_token and the client becomes
authenticated; a failed request stores nothing. -/
def handleCallback15 (resp : Option TokenData) (ls : Store) :
    Store × Bool :=
  match resp with
  | some td => (storeSet ls "bungie_token" td.access_token, true)
  | none => (ls, false)

/-- Embedded from fetchAllWeapons in
src/web_app/frontend/src/pages/Dashboard.js lines 40 to 46: the bearer
token attached to the weapons request is read from localStorage key
bungie_token. -/
def fetchAllWeapons_bearer (ls : Store) : Option String :=
  storeGet ls "bungie_token"

/-- Claim C3 counterexample: the upstream access_token does reach
client-side state: running handleCallback on a successful token response
writes the upstream access token into browser localStorage under
bungie_token, and the Dashboard weapon fetch reads exactly that value
back as its bearer. -/
theorem client_token_storage_cex :
    (handleCallback15 (some (TokenData.mk "UPSTREAM-ACCESS")) []).1
      = [("bungie_token", "UPSTREAM-ACCESS")]
    ∧ fetchAllWeapons_bearer
        (handleCallback15 (some (TokenData.mk "UPSTREAM-ACCESS")) []).1
      = some "UPSTREAM-ACCESS" := by
  refine ⟨rfl, ?_⟩
  rfl

/-- Claim C3 amended: for every successful callback response, the upstream
access_token is written to browser localStorage under the key
bungie_token, and fetchAllWeapons reads that same token back from
localStorage as its bearer; so the upstream access token does appear in
client-side state, contrary to the redesign goal that only the session
token reach the client. -/
theorem client_token_storage (td : TokenData) (ls : Store) :
    (handleCallback15 (some td) ls).1
      = storeSet ls "bungie_token" td.access_token
    ∧ fetchAllWeapons_bearer (handleCallback15 (some td) ls).1
      = some td.access_token := by
  refine ⟨rfl, ?_⟩
  show storeGet (("bungie_token", td.access_token) :: ls) "bungie_token"
    = some td.access_token
  unfold storeGet
  rw [List.find?_cons_of_pos _ (by simp)]

/-! ## Dashboard catalyst list (src/web_app/frontend/src/pages/Dashboard.js) -/

/-- A catalyst row as consumed by the Dashboard component. -/
structure Catalyst where
  name : String
  weaponType : String
  complete : Bool
  progress : Int
deriving DecidableEq, Repr

/-- Lowercasing as applied by toLowerCase in the search filter. -/
def lowerStr (s : String) : String := String.mk (s.data.map Char.toLower)

/-- The pattern list starts the text list. -/
def listStartsWith : List Char → List Char → Bool
  | [], _ => true
  | _ :: _, [] => false
  | a :: as, b :: bs => a == b && listStartsWith as bs

/-- The pattern list occurs contiguously inside the text list. -/
def listHasSub (t : List Char) : List Char → Bool
  | [] => listStartsWith t []
  | c :: cs => listStartsWith t (c :: cs) || listHasSub t cs

/-- JS String.prototype.includes: the pattern occurs contiguously inside
the text; an empty pattern always matches. -/
def strIncl (text pat : String) : Bool := listHasSub pat.data text.data

/-- Embedded from the matchesSearch test of filteredCatalysts in
src/web_app/frontend/src/pages/Dashboard.js line 108. -/
def matchesSearch (searchTerm : String) (c : Catalyst) : Bool :=
  strIncl (lowerStr c.name) (lowerStr searchTerm)

/-- Embedded from the filter of filteredCatalysts in
src/web_app/frontend/src/pages/Dashboard.js lines 106 to 119: all imposes
only the search; completed requires complete; in_progress requires not
complete and progress above zero; not_started requires not complete and
progress exactly zero; any other value falls back to the search test. -/
def passesFilter (filterBy searchTerm : String) (c : Catalyst) : Bool :=
  if filterBy = "all" then matchesSearch searchTerm c
  else if filterBy = "completed" then matchesSearch searchTerm c && c.complete
  else if filterBy = "in_progress" then
    matchesSearch searchTerm c && !c.complete && decide (0 < c.progress)
  else if filterBy = "not_started" then
    matchesSearch searchTerm c && !c.complete && decide (c.progress = 0)
  else matchesSearch searchTerm c

/-- Embedded from the sort comparator of filteredCatalysts in
src/web_app/frontend/src/pages/Dashboard.js lines 120 to 125, read as the
ordering the comparator induces: name and weapon_type ascending,
progress descending, any other key leaves everything unordered. -/
def sortLe (sb : String) (a b : Catalyst) : Bool :=
  if sb = "name" then decide (a.name ≤ b.name)
  else if sb = "progress" then decide (b.progress ≤ a.progress)
  else if sb = "weapon_type" then decide (a.weaponType ≤ b.weaponType)
  else true

def insertLe {α : Type} (le : α → α → Bool) (x : α) : List α → List α
  | [] => [x]
  | y :: ys => if le x y then x :: y :: ys else y :: insertLe le x ys

/-- Comparison sort modelling Array.prototype.sort with a consistent
comparator. -/
def sortByLe {α : Type} (le : α → α → Bool) : List α → List α
  | [] => []
  | x :: xs => insertLe le x (sortByLe le xs)

/-- Embedded from filteredCatalysts in
src/web_app/frontend/src/pages/Dashboard.js lines 106 to 125: filter by
search term and selected filter, then sort with the selected comparator. -/
def filteredCatalysts (cats : List Catalyst)
    (searchTerm filterBy sb : String) : List Catalyst :=
  sortByLe (sortLe sb) (cats.filter (passesFilter filterBy searchTerm))

theorem mem_insertLe {α : Type} (le : α → α → Bool) (x a : α)
    (l : List α) : a ∈ insertLe le x l ↔ a = x ∨ a ∈ l := by
  induction l with
  | nil => simp [insertLe]
  | cons y ys ih =>
    unfold insertLe
    by_cases h : le x y = true
    · simp only [if_pos h, List.mem_cons]
    · simp only [if_neg h, List.mem_cons, ih]
      tauto

theorem mem_sortByLe {α : Type} (le : α → α → Bool) (a : α)
    (l : List α) : a ∈ sortByLe le l ↔ a ∈ l := by
  induction l with
  | nil => simp [sortByLe]
  | cons x xs ih =>
    unfold sortByLe
    rw [mem_insertLe, ih, List.mem_cons]

theorem pairwise_insertLe {α : Type} (le : α → α → Bool)
    (htot : ∀ a b, le a b = true ∨ le b a = true)
    (htr : ∀ a b c, le a b = true → le b c = true → le a c = true)
    (x : α) (l : List α) (hl : l.Pairwise (fun a b => le a b = true)) :
    (insertLe le x l).Pairwise (fun a b => le a b = true) := by
  induction l with
  | nil => simp [insertLe]
  | cons y ys ih =>
    rcases List.pairwise_cons.mp hl with ⟨hy, hys⟩
    unfold insertLe
    by_cases h : le x y = true
    · rw [if_pos h]
      refine List.pairwise_cons.mpr ⟨?_, hl⟩
      intro z hz
      rcases List.mem_cons.mp hz with rfl | hz
      · exact h
      · exact htr x y z h (hy z hz)
    · rw [if_neg h]
      refine List.pairwise_cons.mpr ⟨?_, ih hys⟩
      intro z hz
      rcases (mem_insertLe le x z ys).mp hz with hzx | hz
      · rw [hzx]
        rcases htot x y with hxy | hyx
        · exact absurd hxy h
        · exact hyx
      · exact hy z hz

theorem pairwise_sortByLe {α : Type} (le : α → α → Bool)
    (htot : ∀ a b, le a b = true ∨ le b a = true)
    (htr : ∀ a b c, le a b = true → le b c = true → le a c = true)
    (l : List α) :
    (sortByLe le l).Pairwise (fun a b => le a b = true) := by
  induction l with
  | nil => simp [sortByLe]
  | cons x xs ih =>
    exact pairwise_insertLe le htot htr x (sortByLe le xs) ih

/-- The search and filter criterion exactly as the claim phrases it. -/
def SpecMatches (filterBy searchTerm : String) (c : Catalyst) : Prop :=
  strIncl (lowerStr c.name) (lowerStr searchTerm) = true
  ∧ (filterBy = "completed" → c.complete = true)
  ∧ (filterBy = "in_progress" → c.complete = false ∧ 0 < c.progress)
  ∧ (filterBy = "not_started" → c.complete = false ∧ c.progress = 0)

theorem passesFilter_iff (filterBy searchTerm : String) (c : Catalyst) :
    passesFilter filterBy searchTerm c = true ↔
      SpecMatches filterBy searchTerm c := by
  unfold passesFilter SpecMatches matchesSearch
  by_cases h1 : filterBy = "all"
  · subst h1
    simp +decide [Bool.and_eq_true, Bool.not_eq_true', decide_eq_true_eq]
  · rw [if_neg h1]
    by_cases h2 : filterBy = "completed"
    · subst h2
      simp +decide [Bool.and_eq_true, Bool.not_eq_true', decide_eq_true_eq]
    · rw [if_neg h2]
      by_cases h3 : filterBy = "in_progress"
      · subst h3
        simp +decide [Bool.and_eq_true, Bool.not_eq_true',
          decide_eq_true_eq]
        try tauto
      · rw [if_neg h3]
        by_cases h4 : filterBy = "not_started"
        · subst h4
          simp +decide [Bool.and_eq_true, Bool.not_eq_true',
            decide_eq_true_eq]
          try tauto
        · rw [if_neg h4]
          simp [h2, h3, h4]

theorem sortLe_progress (a b : Catalyst) :
    sortLe "progress" a b = decide (b.progress ≤ a.progress) := by
  unfold sortLe
  rw [if_neg (show ¬ ("progress" : String) = "name" by decide), if_pos rfl]

theorem sortLe_name (a b : Catalyst) :
    sortLe "name" a b = decide (a.name ≤ b.name) := by
  unfold sortLe
  rw [if_pos rfl]

/-- Claim C9: the filtered Dashboard list contains exactly the catalysts
whose lowercased name contains the lowercased search term and that
satisfy the selected filter (completed requires complete, in_progress
requires not complete with positive progress, not_started requires not
complete with zero progress, all imposes nothing further); sorting by
progress yields non-increasing progress and sorting by name yields
non-decreasing names. -/
theorem filteredCatalysts_spec (cats : List Catalyst)
    (searchTerm filterBy sb : String) :
    (∀ c, c ∈ filteredCatalysts cats searchTerm filterBy sb ↔
      c ∈ cats ∧ SpecMatches filterBy searchTerm c)
    ∧ (sb = "progress" →
        (filteredCatalysts cats searchTerm filterBy sb).Pairwise
          (fun a b => b.progress ≤ a.progress))
    ∧ (sb = "name" →
        (filteredCatalysts cats searchTerm filterBy sb).Pairwise
          (fun a b => a.name ≤ b.name)) := by
  refine ⟨?_, ?_, ?_⟩
  · intro c
    unfold filteredCatalysts
    rw [mem_sortByLe, List.mem_filter, passesFilter_iff]
  · intro hsb
    subst hsb
    have hpw := pairwise_sortByLe (sortLe "progress")
      (by
        intro a b
        rw [sortLe_progress, sortLe_progress]
        simp only [decide_eq_true_eq]
        exact Int.le_total b.progress a.progress)
      (by
        intro a b c hab hbc
        rw [sortLe_progress] at hab hbc ⊢
        simp only [decide_eq_true_eq] at hab hbc ⊢
        exact le_trans hbc hab)
      (cats.filter (passesFilter filterBy searchTerm))
    unfold filteredCatalysts
    refine hpw.imp ?_
    intro a b hab
    rw [sortLe_progress] at hab
    exact of_decide_eq_true hab
  · intro hsb
    subst hsb
    have hpw := pairwise_sortByLe (sortLe "name")
      (by
        intro a b
        rw [sortLe_name, sortLe_name]
        simp only [decide_eq_true_eq]
        exact le_total a.name b.name)
      (by
        intro a b c hab hbc
        rw [sortLe_name] at hab hbc ⊢
        simp only [decide_eq_true_eq] at hab hbc ⊢
        exact le_trans hab hbc)
      (cats.filter (passesFilter filterBy searchTerm))
    unfold filteredCatalysts
    refine hpw.imp ?_
    intro a b hab
    rw [sortLe_name] at hab
    exact of_decide_eq_true hab

/-- Catalysts used by the C9 witness. -/
def catA : Catalyst := Catalyst.mk "Ace of Spades" "Hand Cannon" false 20
def catB : Catalyst := Catalyst.mk "Bad Juju" "Pulse Rifle" true 100

theorem filteredCatalysts_spec_witness :
    (catA ∈ filteredCatalysts [catA, catB] "" "all" "progress" ↔
      catA ∈ [catA, catB] ∧ SpecMatches "all" "" catA)
    ∧ (filteredCatalysts [catA, catB] "" "all" "progress").Pairwise
        (fun a b => b.progress ≤ a.progress) :=
  ⟨(filteredCatalysts_spec [catA, catB] "" "all" "progress").1 catA,
    (filteredCatalysts_spec [catA, catB] "" "all" "progress").2.1 rfl⟩

/-! ## Per-objective progress bar (CatalystCard) -/

/-- Embedded from CatalystCard in
src/web_app/frontend/src/pages/Dashboard.js line 184: the per-objective
progress bar value, a bare division and scaling with no guard on the
divisor and no clamping. -/
def objectiveBarValue (progress completion : ℚ) : ℚ :=
  (progress / completion) * 100

/-- Claim C10: the per-objective bar value is (progress / completion)
times 100 for every input (no guarded branch, in particular none for a
zero divisor); it is not clamped, exceeding 100 when progress exceeds
completion; and under the precondition that completion is positive and
progress at most completion it stays at most 100. -/
theorem objectiveBarValue_spec (p c : ℚ) :
    objectiveBarValue p c = (p / c) * 100
    ∧ 100 < objectiveBarValue 2 1
    ∧ (0 < c → p ≤ c → objectiveBarValue p c ≤ 100) := by
  refine ⟨rfl, by norm_num [objectiveBarValue], ?_⟩
  intro hc hpc
  unfold objectiveBarValue
  have h1 : p / c ≤ 1 := (div_le_one hc).mpr hpc
  calc (p / c) * 100 ≤ 1 * 100 :=
    mul_le_mul_of_nonneg_right h1 (by norm_num)
  _ = 100 := by norm_num

theorem objectiveBarValue_spec_witness :
    100 < objectiveBarValue 2 1 ∧ objectiveBarValue 3 4 ≤ 100 :=
  ⟨(objectiveBarValue_spec 2 1).2.1,
    (objectiveBarValue_spec 3 4).2.2 (by norm_num) (by norm_num)⟩

end D2
